import Mathlib

/-!
Verification of the document-processing pipeline of the LayoutLM repository:
entity post-processing and aggregation (`core/model/postprocess.py`),
bounding-box normalization (`core/model/inference.py`), image resizing
(`core/pipeline/image_utils.py`), batch orchestration
(`core/pipeline/document_processor.py`) and export
(`core/pipeline/export.py`), shallowly embedded in Lean.

Python integers are modelled as `Int` (or `Nat` where the source values are
pixel coordinates, which are nonnegative). Python floats are modelled as
rationals: where the code only compares confidences and takes minima these
operations are exact, while the float divisions and multiplications of
`resize_image` are modelled by `fl`, correctly rounded binary64 arithmetic
carried exactly on rationals.
-/

namespace LayoutLM

/-- Integer pixel rectangle: the `bbox` dict with keys x1, y1, x2, y2 used
throughout `core/model/postprocess.py`. -/
structure BBox where
  x1 : Int
  y1 : Int
  x2 : Int
  y2 : Int
deriving DecidableEq

/-- The `Entity` dataclass of `core/model/postprocess.py`. -/
structure Entity where
  text : String
  label : String
  confidence : ℚ
  bbox : BBox
deriving DecidableEq

/-- Merge condition inside the loop of `aggregate_entities`:
`entity.label == current.label` and
`abs(entity.bbox["x1"] - current.bbox["x2"]) < 50`. -/
def shouldMerge (current e : Entity) : Prop :=
  e.label = current.label ∧ (e.bbox.x1 - current.bbox.x2).natAbs < 50

instance (current e : Entity) : Decidable (shouldMerge current e) := by
  unfold shouldMerge; infer_instance

/-- The merged entity built in the body of `aggregate_entities`: text joined
with a single space, minimum confidence, coordinate-wise bbox union. -/
def mergeEntities (current e : Entity) : Entity :=
  { text := current.text ++ " " ++ e.text
    label := current.label
    confidence := min current.confidence e.confidence
    bbox :=
      { x1 := min current.bbox.x1 e.bbox.x1
        y1 := min current.bbox.y1 e.bbox.y1
        x2 := max current.bbox.x2 e.bbox.x2
        y2 := max current.bbox.y2 e.bbox.y2 } }

/-- The loop of `aggregate_entities` with a live accumulator `current`;
the accumulator is appended to the output when the incoming entity does
not merge with it, and flushed at the end of the input. -/
def aggLoop (current : Entity) : List Entity → List Entity
  | [] => [current]
  | e :: rest =>
    if shouldMerge current e then aggLoop (mergeEntities current e) rest
    else current :: aggLoop e rest

/-- The function `aggregate_entities` of `core/model/postprocess.py`. -/
def aggregate_entities : List Entity → List Entity
  | [] => []
  | e :: rest => aggLoop e rest

/-- C1: `aggregate_entities` merges the next entity into the current
accumulator iff the labels agree and the horizontal gap between the
accumulator's right edge (x2) and the next entity's left edge (x1) is
below 50 px; the merged entity concatenates the texts with one space,
takes the minimum confidence, and the coordinate-wise bbox union. -/
theorem aggregate_entities_merge_step (e1 e2 : Entity) (rest : List Entity) :
    aggregate_entities (e1 :: e2 :: rest) =
      if e2.label = e1.label ∧ (e2.bbox.x1 - e1.bbox.x2).natAbs < 50 then
        aggregate_entities
          ({ text := e1.text ++ " " ++ e2.text
             label := e1.label
             confidence := min e1.confidence e2.confidence
             bbox :=
               { x1 := min e1.bbox.x1 e2.bbox.x1
                 y1 := min e1.bbox.y1 e2.bbox.y1
                 x2 := max e1.bbox.x2 e2.bbox.x2
                 y2 := max e1.bbox.y2 e2.bbox.y2 } } :: rest)
      else e1 :: aggregate_entities (e2 :: rest) := by
  by_cases h : shouldMerge e1 e2
  · simp only [aggregate_entities, aggLoop, if_pos h]
    unfold shouldMerge at h
    rw [if_pos h]
    rfl
  · simp only [aggregate_entities, aggLoop, if_neg h]
    unfold shouldMerge at h
    rw [if_neg h]

/-- Three same-label entities on which aggregation is not idempotent: the
first pass merges the last two (gap 41 px), which lowers the merged
entity's left edge to 110, within 50 px of the first entity's right
edge 100, so a second pass merges again. -/
def entA : Entity := ⟨"a", "X", 1, ⟨0, 0, 100, 10⟩⟩

/-- Second entity of the non-idempotence example (left edge 150, 50 px away
from `entA`, so it does not merge with it). -/
def entB : Entity := ⟨"b", "X", 1, ⟨150, 0, 151, 10⟩⟩

/-- Third entity of the non-idempotence example (left edge 110, 41 px from
the right edge of `entB`, so it merges with it). -/
def entC : Entity := ⟨"c", "X", 1, ⟨110, 0, 160, 10⟩⟩

/-- C2 counterexample: `aggregate_entities` is not idempotent. On
`[entA, entB, entC]` one pass yields two entities, a second pass one. -/
theorem aggregate_entities_not_idempotent :
    aggregate_entities (aggregate_entities [entA, entB, entC]) ≠
      aggregate_entities [entA, entB, entC] := by
  decide

/-- A list in which no entity merges with its successor is left unchanged
by the aggregation loop. -/
theorem aggLoop_of_chain_not_merge (rest : List Entity) :
    ∀ current : Entity,
      List.Chain' (fun a b => ¬ shouldMerge a b) (current :: rest) →
      aggLoop current rest = current :: rest := by
  induction rest with
  | nil => intro current _; rfl
  | cons e rest ih =>
    intro current h
    rw [List.chain'_cons] at h
    simp only [aggLoop, if_neg h.1]
    rw [ih e h.2]

/-- The first entity that `aggLoop` outputs keeps the accumulator's label,
and also its left edge provided the accumulator lies left of the rest. -/
theorem aggLoop_head (rest : List Entity) :
    ∀ current : Entity,
      (∀ e ∈ rest, current.bbox.x1 ≤ e.bbox.x1) →
      ∃ h t, aggLoop current rest = h :: t ∧
        h.label = current.label ∧ h.bbox.x1 = current.bbox.x1 := by
  induction rest with
  | nil => intro current _; exact ⟨current, [], rfl, rfl, rfl⟩
  | cons e rest ih =>
    intro current hle
    by_cases hm : shouldMerge current e
    · have hcur : current.bbox.x1 ≤ e.bbox.x1 := hle e (List.mem_cons_self e rest)
      obtain ⟨h, t, heq, hlab, hx⟩ := ih (mergeEntities current e)
        (fun f hf => le_trans (min_le_left _ _) (hle f (List.mem_cons_of_mem e hf)))
      refine ⟨h, t, ?_, ?_, ?_⟩
      · simp only [aggLoop, if_pos hm]; exact heq
      · exact hlab
      · rw [hx]; exact min_eq_left hcur
    · exact ⟨current, aggLoop e rest, by simp only [aggLoop, if_neg hm], rfl, rfl⟩

/-- On input sorted by left edge, the output of the aggregation loop has no
two consecutive entities that would merge: each accumulator is closed
exactly when the entity starting the next group fails the merge test, and
on sorted input that entity retains its left edge through later merges. -/
theorem aggLoop_chain_not_merge (rest : List Entity) :
    ∀ current : Entity,
      List.Pairwise (fun a b => a.bbox.x1 ≤ b.bbox.x1) rest →
      (∀ e ∈ rest, current.bbox.x1 ≤ e.bbox.x1) →
      List.Chain' (fun a b => ¬ shouldMerge a b) (aggLoop current rest) := by
  induction rest with
  | nil => intro current _ _; simp [aggLoop]
  | cons e rest ih =>
    intro current hp hle
    rw [List.pairwise_cons] at hp
    by_cases hm : shouldMerge current e
    · simp only [aggLoop, if_pos hm]
      exact ih (mergeEntities current e) hp.2
        (fun f hf => le_trans (min_le_left _ _) (hle f (List.mem_cons_of_mem e hf)))
    · simp only [aggLoop, if_neg hm]
      obtain ⟨h, t, heq, hlab, hx⟩ := aggLoop_head rest e hp.1
      have hchain := ih e hp.2 hp.1
      rw [heq] at hchain ⊢
      rw [List.chain'_cons]
      refine ⟨?_, hchain⟩
      intro hcontra
      exact hm ⟨hlab ▸ hcontra.1, hx ▸ hcontra.2⟩

/-- C2 (amended): aggregation is idempotent on entity lists that are sorted
by left edge x1 (left-to-right reading order); on unordered input a merge
can lower a group's left edge into the 50 px range of the previously
closed accumulator, so a second pass can merge further. -/
theorem aggregate_entities_idempotent_of_sorted (l : List Entity)
    (hs : List.Sorted (fun a b => a.bbox.x1 ≤ b.bbox.x1) l) :
    aggregate_entities (aggregate_entities l) = aggregate_entities l := by
  cases l with
  | nil => rfl
  | cons e rest =>
    rw [List.sorted_cons] at hs
    show aggregate_entities (aggLoop e rest) = aggLoop e rest
    have hchain := aggLoop_chain_not_merge rest e hs.2 hs.1
    obtain ⟨h, t, heq, -, -⟩ := aggLoop_head rest e hs.1
    rw [heq] at hchain ⊢
    show aggLoop h t = h :: t
    exact aggLoop_of_chain_not_merge t h hchain

/-- Witness for `aggregate_entities_idempotent_of_sorted` on a concrete
sorted two-entity list. -/
theorem aggregate_entities_idempotent_of_sorted_witness :
    List.Sorted (fun a b => a.bbox.x1 ≤ b.bbox.x1)
        [Entity.mk "a" "X" 1 ⟨0, 0, 100, 10⟩, Entity.mk "b" "X" 1 ⟨110, 0, 160, 10⟩] ∧
      aggregate_entities (aggregate_entities
          [Entity.mk "a" "X" 1 ⟨0, 0, 100, 10⟩, Entity.mk "b" "X" 1 ⟨110, 0, 160, 10⟩]) =
        aggregate_entities
          [Entity.mk "a" "X" 1 ⟨0, 0, 100, 10⟩, Entity.mk "b" "X" 1 ⟨110, 0, 160, 10⟩] :=
  ⟨by simp [List.sorted_cons], aggregate_entities_idempotent_of_sorted _ (by simp [List.sorted_cons])⟩

/-- Four-coordinate pixel (or 0-1000 normalized) box carried as a plain
list `[x1, y1, x2, y2]` of nonnegative integers in the Python sources;
Python `int(...)` truncation of a nonnegative quotient is Nat division. -/
structure PixBox where
  x1 : ℕ
  y1 : ℕ
  x2 : ℕ
  y2 : ℕ
deriving DecidableEq

/-- Normalization of a pixel box to the 0-1000 space in `run_inference`
(`core/model/inference.py`): `int(1000 * coord / dimension)`, x-coordinates
divided by the width and y-coordinates by the height. -/
def normalize_box (b : PixBox) (width height : ℕ) : PixBox :=
  { x1 := 1000 * b.x1 / width
    y1 := 1000 * b.y1 / height
    x2 := 1000 * b.x2 / width
    y2 := 1000 * b.y2 / height }

/-- The function `unnormalize_bbox` of `core/model/postprocess.py`:
`int(coord * dimension / 1000)` per axis. -/
def unnormalize_bbox (b : PixBox) (image_width image_height : ℕ) : PixBox :=
  { x1 := b.x1 * image_width / 1000
    y1 := b.y1 * image_height / 1000
    x2 := b.x2 * image_width / 1000
    y2 := b.y2 * image_height / 1000 }

/-- Two natural numbers differing by at most one unit. -/
def withinOne (a b : ℕ) : Prop := a ≤ b + 1 ∧ b ≤ a + 1

instance (a b : ℕ) : Decidable (withinOne a b) := by
  unfold withinOne; infer_instance

/-- Coordinate-wise version of `withinOne` for boxes. -/
def boxWithinOne (a b : PixBox) : Prop :=
  withinOne a.x1 b.x1 ∧ withinOne a.y1 b.y1 ∧
    withinOne a.x2 b.x2 ∧ withinOne a.y2 b.y2

instance (a b : PixBox) : Decidable (boxWithinOne a b) := by
  unfold boxWithinOne; infer_instance

/-- C3 counterexample: in a 1999 x 1999 image the box (0, 0, 3, 3)
normalizes to (0, 0, 1, 1) and unnormalizes back to (0, 0, 1, 1), so the
x2 and y2 coordinates are off by 2, not at most 1. -/
theorem normalize_roundtrip_not_within_one :
    ¬ boxWithinOne
        (unnormalize_bbox (normalize_box ⟨0, 0, 3, 3⟩ 1999 1999) 1999 1999)
        ⟨0, 0, 3, 3⟩ := by
  decide

/-- One coordinate of the round trip: the result never exceeds the original
and undershoots by at most one unit when the dimension is at most 1000. -/
theorem coord_roundtrip (c d : ℕ) (hd : 0 < d) (hle : d ≤ 1000) :
    1000 * c / d * d / 1000 ≤ c ∧ c ≤ 1000 * c / d * d / 1000 + 1 := by
  obtain ⟨n, hn⟩ : ∃ n, 1000 * c / d = n := ⟨_, rfl⟩
  have e1 : d * n + 1000 * c % d = 1000 * c := by rw [← hn]; exact Nat.div_add_mod _ _
  have e2 : 1000 * c % d < d := Nat.mod_lt _ hd
  rw [hn]
  obtain ⟨m, hm⟩ : ∃ m, n * d = m := ⟨_, rfl⟩
  have e5 : d * n = m := by rw [← hm]; ring
  rw [hm]
  omega

/-- C3 (amended): for every box with integer coordinates inside an image of
size (W, H) with 0 < W ≤ 1000 and 0 < H ≤ 1000, unnormalizing the
normalized box recovers every coordinate within one unit (for larger
images the truncation error can reach ceil(dimension / 1000) units). -/
theorem normalize_roundtrip_within_one (b : PixBox) (W H : ℕ)
    (hW : 0 < W) (hH : 0 < H) (hW2 : W ≤ 1000) (hH2 : H ≤ 1000)
    (hbx1 : b.x1 ≤ W) (hby1 : b.y1 ≤ H) (hbx2 : b.x2 ≤ W) (hby2 : b.y2 ≤ H) :
    boxWithinOne (unnormalize_bbox (normalize_box b W H) W H) b := by
  refine ⟨?_, ?_, ?_, ?_⟩ <;>
    exact ⟨(coord_roundtrip _ _ (by assumption) (by assumption)).1.trans (Nat.le_succ_of_le le_rfl),
      (coord_roundtrip _ _ (by assumption) (by assumption)).2⟩

/-- Witness for `normalize_roundtrip_within_one` on a concrete box in an
800 x 600 image. -/
theorem normalize_roundtrip_within_one_witness :
    0 < 800 ∧ 0 < 600 ∧
      boxWithinOne (unnormalize_bbox (normalize_box ⟨10, 20, 30, 40⟩ 800 600) 800 600)
        ⟨10, 20, 30, 40⟩ :=
  ⟨by decide, by decide,
    normalize_roundtrip_within_one ⟨10, 20, 30, 40⟩ 800 600 (by decide) (by decide)
      (by decide) (by decide) (by decide) (by decide) (by decide) (by decide)⟩

/-- The fixed FUNSD label table of `get_label_mapping`
(`core/model/loader.py`) composed with the `label_map.get(pred, "O")`
lookup of `process_predictions`: unknown ids fall back to "O". -/
def label_map_get (pred : ℕ) : String :=
  match pred with
  | 0 => "O"
  | 1 => "B-HEADER"
  | 2 => "I-HEADER"
  | 3 => "B-QUESTION"
  | 4 => "I-QUESTION"
  | 5 => "B-ANSWER"
  | 6 => "I-ANSWER"
  | _ => "O"

/-- Simplified label of `process_predictions`:
`label_name.split("-")[-1] if "-" in label_name else label_name`,
which strips the leading "B-" or "I-" of the labels of the fixed table. -/
def simple_label (label_name : String) : String :=
  if label_name.contains '-' then (label_name.splitOn "-").getLastD label_name
  else label_name

/-- The fields of the `run_inference` result dict that
`process_predictions` consumes (`predictions`, `confidence_scores`,
`word_ids`, `words`, `boxes`); the remaining keys (`normalized_boxes`,
`image_size`) are not read by the postprocessor. `boxes` holds the pixel
boxes of the OCR words. -/
structure InferenceResult where
  predictions : List ℕ
  confidence_scores : List ℚ
  word_ids : List (Option ℕ)
  words : List String
  boxes : List BBox
deriving DecidableEq

/-- Per-token word index fetched by the loop of `process_predictions`:
`word_ids[idx] if idx < len(word_ids) else None`. -/
def wordIdAt (r : InferenceResult) (idx : ℕ) : Option ℕ :=
  (r.word_ids.get? idx).getD none

/-- The token stream iterated by `process_predictions`:
`zip(predictions, confidence_scores)` in sequence order, with the word
index the loop fetches at each position precomputed. -/
def tokenStream (r : InferenceResult) : List (Option ℕ × ℕ × ℚ) :=
  (r.predictions.zip r.confidence_scores).enum.map fun p => (wordIdAt r p.1, p.2)

/-- The token loop of `process_predictions`, with the `processed_words` set
as an explicit list: tokens with a null or already processed word index are
skipped; a first token marks its word processed, is dropped when its label
is "O" or its confidence is below the threshold, and otherwise emits an
entity when the word index is within the word list. -/
def ppLoop (r : InferenceResult) (thr : ℚ) :
    List (Option ℕ × ℕ × ℚ) → List ℕ → List Entity
  | [], _ => []
  | (wid?, pred, conf) :: rest, processed =>
    match wid? with
    | none => ppLoop r thr rest processed
    | some wid =>
      if wid ∈ processed then ppLoop r thr rest processed
      else if label_map_get pred = "O" ∨ conf < thr then
        ppLoop r thr rest (wid :: processed)
      else if wid < r.words.length then
        { text := r.words.getD wid ""
          label := simple_label (label_map_get pred)
          confidence := conf
          bbox := r.boxes.getD wid ⟨0, 0, 0, 0⟩ } :: ppLoop r thr rest (wid :: processed)
      else ppLoop r thr rest (wid :: processed)

/-- The function `process_predictions` of `core/model/postprocess.py`. -/
def process_predictions (r : InferenceResult) (confidence_threshold : ℚ) : List Entity :=
  ppLoop r confidence_threshold (tokenStream r) []

/-- Spec-side first-token-wins policy: the first token of each distinct
word index in stream order, with `seen` the word indices already consumed;
a word is consumed by its first token independently of any later filtering. -/
def firstWordTokens : List (Option ℕ × ℕ × ℚ) → List ℕ → List (ℕ × ℕ × ℚ)
  | [], _ => []
  | (none, _, _) :: rest, seen => firstWordTokens rest seen
  | (some w, pred, conf) :: rest, seen =>
    if w ∈ seen then firstWordTokens rest seen
    else (w, pred, conf) :: firstWordTokens rest (w :: seen)

/-- Spec-side emission for a word's first token: discard it when its label
is the background label "O", its confidence is below the threshold, or no
word aligns with it; otherwise emit the aligned word's text, its pixel
bounding box, and the label with the leading "B-" or "I-" stripped. -/
def emitEntity (r : InferenceResult) (thr : ℚ) (t : ℕ × ℕ × ℚ) : Option Entity :=
  if label_map_get t.2.1 = "O" ∨ t.2.2 < thr ∨ ¬ t.1 < r.words.length then none
  else some
    { text := r.words.getD t.1 ""
      label := simple_label (label_map_get t.2.1)
      confidence := t.2.2
      bbox := r.boxes.getD t.1 ⟨0, 0, 0, 0⟩ }

/-- The token loop and the spec-side dedup-then-filter agree: consuming a
word on first sight and filtering afterwards commute. -/
theorem ppLoop_eq_filterMap (r : InferenceResult) (thr : ℚ) :
    ∀ (toks : List (Option ℕ × ℕ × ℚ)) (processed : List ℕ),
      ppLoop r thr toks processed =
        (firstWordTokens toks processed).filterMap (emitEntity r thr) := by
  intro toks
  induction toks with
  | nil => intro processed; rfl
  | cons t rest ih =>
    intro processed
    obtain ⟨w?, pred, conf⟩ := t
    cases w? with
    | none => simpa only [ppLoop, firstWordTokens] using ih processed
    | some w =>
      by_cases hmem : w ∈ processed
      · simp only [ppLoop, firstWordTokens, if_pos hmem]
        exact ih processed
      · by_cases hdisc : label_map_get pred = "O" ∨ conf < thr
        · have he : emitEntity r thr (w, pred, conf) = none := by
            unfold emitEntity
            rcases hdisc with h | h
            · exact if_pos (Or.inl h)
            · exact if_pos (Or.inr (Or.inl h))
          simp only [ppLoop, firstWordTokens, if_neg hmem, if_pos hdisc,
            List.filterMap_cons, he]
          exact ih (w :: processed)
        · by_cases hlen : w < r.words.length
          · have he : emitEntity r thr (w, pred, conf) = some
                { text := r.words.getD w ""
                  label := simple_label (label_map_get pred)
                  confidence := conf
                  bbox := r.boxes.getD w ⟨0, 0, 0, 0⟩ } := by
              unfold emitEntity
              rw [if_neg]
              push_neg
              push_neg at hdisc
              exact ⟨hdisc.1, hdisc.2, hlen⟩
            simp only [ppLoop, firstWordTokens, if_neg hmem, if_pos hlen, if_neg hdisc,
              List.filterMap_cons, he]
            rw [ih (w :: processed)]
          · have he : emitEntity r thr (w, pred, conf) = none := by
              unfold emitEntity
              exact if_pos (Or.inr (Or.inr hlen))
            simp only [ppLoop, firstWordTokens, if_neg hmem, if_neg hlen, if_neg hdisc,
              List.filterMap_cons, he]
            exact ih (w :: processed)

/-- Word indices emitted by `firstWordTokens` were not yet consumed. -/
theorem firstWordTokens_fst_not_mem :
    ∀ (toks : List (Option ℕ × ℕ × ℚ)) (seen : List ℕ) (t : ℕ × ℕ × ℚ),
      t ∈ firstWordTokens toks seen → t.1 ∉ seen := by
  intro toks
  induction toks with
  | nil => intro seen t h; cases h
  | cons a rest ih =>
    intro seen t h
    obtain ⟨w?, pred, conf⟩ := a
    cases w? with
    | none => exact ih seen t (by simpa only [firstWordTokens] using h)
    | some w =>
      by_cases hmem : w ∈ seen
      · exact ih seen t (by simpa only [firstWordTokens, if_pos hmem] using h)
      · simp only [firstWordTokens, if_neg hmem] at h
        rcases List.mem_cons.mp h with rfl | h2
        · exact hmem
        · have h3 := ih (w :: seen) t h2
          exact fun hc => h3 (List.mem_cons_of_mem _ hc)

/-- A word index appears at most once among the first tokens. -/
theorem firstWordTokens_fst_nodup :
    ∀ (toks : List (Option ℕ × ℕ × ℚ)) (seen : List ℕ),
      ((firstWordTokens toks seen).map Prod.fst).Nodup := by
  intro toks
  induction toks with
  | nil => intro seen; simp [firstWordTokens]
  | cons a rest ih =>
    intro seen
    obtain ⟨w?, pred, conf⟩ := a
    cases w? with
    | none => simpa only [firstWordTokens] using ih seen
    | some w =>
      by_cases hmem : w ∈ seen
      · simpa only [firstWordTokens, if_pos hmem] using ih seen
      · simp only [firstWordTokens, if_neg hmem, List.map_cons, List.nodup_cons]
        refine ⟨?_, ih (w :: seen)⟩
        intro hc
        obtain ⟨t, ht, hteq⟩ := List.mem_map.mp hc
        exact firstWordTokens_fst_not_mem rest (w :: seen) t ht
          (by rw [hteq]; exact List.mem_cons_self w seen)

/-- Every first token is a token of the stream (with its word index). -/
theorem mem_firstWordTokens :
    ∀ (toks : List (Option ℕ × ℕ × ℚ)) (seen : List ℕ) (t : ℕ × ℕ × ℚ),
      t ∈ firstWordTokens toks seen → (some t.1, t.2) ∈ toks := by
  intro toks
  induction toks with
  | nil => intro seen t h; cases h
  | cons a rest ih =>
    intro seen t h
    obtain ⟨w?, pred, conf⟩ := a
    cases w? with
    | none =>
      exact List.mem_cons_of_mem _ (ih seen t (by simpa only [firstWordTokens] using h))
    | some w =>
      by_cases hmem : w ∈ seen
      · exact List.mem_cons_of_mem _
          (ih seen t (by simpa only [firstWordTokens, if_pos hmem] using h))
      · simp only [firstWordTokens, if_neg hmem] at h
        rcases List.mem_cons.mp h with rfl | h2
        · exact List.mem_cons_self _ _
        · exact List.mem_cons_of_mem _ (ih (w :: seen) t h2)

/-- The token kept for a word index is the first token of the stream
carrying that word index. -/
theorem firstWordTokens_first :
    ∀ (toks : List (Option ℕ × ℕ × ℚ)) (seen : List ℕ) (t : ℕ × ℕ × ℚ),
      t ∈ firstWordTokens toks seen →
      toks.find? (fun a => a.1 == some t.1) = some (some t.1, t.2) := by
  intro toks
  induction toks with
  | nil => intro seen t h; cases h
  | cons a rest ih =>
    intro seen t h
    obtain ⟨w?, pred, conf⟩ := a
    cases w? with
    | none =>
      rw [List.find?_cons_of_neg _ (by simp)]
      exact ih seen t (by simpa only [firstWordTokens] using h)
    | some w =>
      by_cases hmem : w ∈ seen
      · have h2 : t ∈ firstWordTokens rest seen := by
          simpa only [firstWordTokens, if_pos hmem] using h
        have hne : w ≠ t.1 := by
          intro hc
          exact firstWordTokens_fst_not_mem rest seen t h2 (hc ▸ hmem)
        rw [List.find?_cons_of_neg _ (by simpa using hne)]
        exact ih seen t h2
      · simp only [firstWordTokens, if_neg hmem] at h
        rcases List.mem_cons.mp h with rfl | h2
        · rw [List.find?_cons_of_pos _ (by simp)]
        · have hne : w ≠ t.1 := by
            intro hc
            exact firstWordTokens_fst_not_mem rest (w :: seen) t h2
              (hc ▸ List.mem_cons_self w seen)
          rw [List.find?_cons_of_neg _ (by simpa using hne)]
          exact ih (w :: seen) t h2

/-- A word index has a first token iff some token of the stream carries it
and it was not consumed beforehand. -/
theorem firstWordTokens_fst_mem_iff :
    ∀ (toks : List (Option ℕ × ℕ × ℚ)) (seen : List ℕ) (w : ℕ),
      w ∈ (firstWordTokens toks seen).map Prod.fst ↔
        w ∉ seen ∧ some w ∈ toks.map Prod.fst := by
  intro toks
  induction toks with
  | nil => intro seen w; simp [firstWordTokens]
  | cons a rest ih =>
    intro seen w
    obtain ⟨w?, pred, conf⟩ := a
    cases w? with
    | none =>
      simp only [firstWordTokens, List.map_cons, List.mem_cons, ih seen w]
      constructor
      · exact fun h => ⟨h.1, Or.inr h.2⟩
      · rintro ⟨h1, h2 | h2⟩
        · cases h2
        · exact ⟨h1, h2⟩
    | some w' =>
      by_cases hmem : w' ∈ seen
      · simp only [firstWordTokens, if_pos hmem, List.map_cons, List.mem_cons, ih seen w]
        constructor
        · exact fun h => ⟨h.1, Or.inr h.2⟩
        · rintro ⟨h1, h2 | h2⟩
          · rw [Option.some_inj.mp h2] at h1
            exact absurd hmem h1
          · exact ⟨h1, h2⟩
      · simp only [firstWordTokens, if_neg hmem, List.map_cons, List.mem_cons,
          ih (w' :: seen) w]
        constructor
        · rintro (rfl | ⟨h1, h2⟩)
          · exact ⟨hmem, Or.inl rfl⟩
          · exact ⟨fun hc => h1 (Or.inr hc), Or.inr h2⟩
        · rintro ⟨h1, h2 | h2⟩
          · exact Or.inl (Option.some_inj.mp h2)
          · by_cases hww : w = w'
            · exact Or.inl hww
            · exact Or.inr ⟨fun hc => hc.elim hww h1, h2⟩

/-- Every confidence in the token stream is one of the inference result's
confidence scores. -/
theorem tokenStream_conf_mem (r : InferenceResult) :
    ∀ p ∈ tokenStream r, p.2.2 ∈ r.confidence_scores := by
  intro p hp
  obtain ⟨ip, hip, rfl⟩ := List.mem_map.mp hp
  obtain ⟨i, pc⟩ := ip
  obtain ⟨pr, cf⟩ := pc
  have h2 : (pr, cf) ∈ r.predictions.zip r.confidence_scores :=
    List.getElem?_mem (List.mem_enum_iff_getElem?.mp hip)
  exact (List.of_mem_zip h2).2

/-- Every non-null word index in the token stream occurs in `word_ids`. -/
theorem tokenStream_fst_mem (r : InferenceResult) :
    ∀ p ∈ tokenStream r, p.1 = none ∨ p.1 ∈ r.word_ids := by
  intro p hp
  obtain ⟨ip, hip, rfl⟩ := List.mem_map.mp hp
  show wordIdAt r ip.1 = none ∨ wordIdAt r ip.1 ∈ r.word_ids
  unfold wordIdAt
  cases hg : r.word_ids.get? ip.1 with
  | none => exact Or.inl rfl
  | some o => exact Or.inr (by simpa using List.get?_mem hg)

/-- C4: `process_predictions` iterates tokens in sequence order and emits
entities word by word, each decided by the word's first token: it equals
the first token of each distinct word index (null and already consumed
indices skipped, the word consumed even when its token is then discarded),
filtered by the background label "O" and the confidence threshold, emitting
the aligned word's text, its pixel box and the prefix-stripped label; no
word index yields more than one entity. -/
theorem process_predictions_first_token_wins (r : InferenceResult) (thr : ℚ) :
    process_predictions r thr =
      (firstWordTokens (tokenStream r) []).filterMap (emitEntity r thr) ∧
    ((firstWordTokens (tokenStream r) []).map Prod.fst).Nodup :=
  ⟨ppLoop_eq_filterMap r thr (tokenStream r) [],
    firstWordTokens_fst_nodup (tokenStream r) []⟩

/-- C10: a token whose word index is beyond the word list produces no
entity but still marks its word index as consumed; the loop is total on
such input. -/
theorem ppLoop_out_of_range_word_id (r : InferenceResult) (thr : ℚ)
    (wid pred : ℕ) (conf : ℚ) (rest : List (Option ℕ × ℕ × ℚ)) (processed : List ℕ)
    (hmem : wid ∉ processed) (hlen : r.words.length ≤ wid) :
    ppLoop r thr ((some wid, pred, conf) :: rest) processed =
      ppLoop r thr rest (wid :: processed) := by
  have hnl : ¬ wid < r.words.length := not_lt.mpr hlen
  by_cases hdisc : label_map_get pred = "O" ∨ conf < thr
  · simp only [ppLoop, if_neg hmem, if_pos hdisc]
  · simp only [ppLoop, if_neg hmem, if_neg hdisc, if_neg hnl]

/-- Concrete inference result whose only token points at word index 5
while the word list has a single word. -/
def rOut : InferenceResult :=
  { predictions := [3]
    confidence_scores := [9/10]
    word_ids := [some 5]
    words := ["Name:"]
    boxes := [⟨1, 2, 3, 4⟩] }

/-- Witness for `ppLoop_out_of_range_word_id` at a concrete token. -/
theorem ppLoop_out_of_range_word_id_witness :
    (5 : ℕ) ∉ ([] : List ℕ) ∧ rOut.words.length ≤ 5 ∧
      ppLoop rOut (1/2) [(some 5, 3, 9/10)] [] = ppLoop rOut (1/2) [] [5] :=
  ⟨by decide, by decide,
    ppLoop_out_of_range_word_id rOut (1/2) 5 3 (9/10) [] [] (by decide) (by decide)⟩

/-- With threshold 0, nonnegative confidences and in-range word indices,
emission reduces to the background-label filter. -/
theorem filterMap_emit_zero (r : InferenceResult) :
    ∀ S : List (ℕ × ℕ × ℚ),
      (∀ t ∈ S, 0 ≤ t.2.2 ∧ t.1 < r.words.length) →
      S.filterMap (emitEntity r 0) =
        (S.filter (fun t => !(label_map_get t.2.1 == "O"))).map
          (fun t =>
            { text := r.words.getD t.1 ""
              label := simple_label (label_map_get t.2.1)
              confidence := t.2.2
              bbox := r.boxes.getD t.1 ⟨0, 0, 0, 0⟩ }) := by
  intro S
  induction S with
  | nil => intro _; rfl
  | cons t S ih =>
    intro h
    have ht := h t (List.mem_cons_self t S)
    have hrest := fun a ha => h a (List.mem_cons_of_mem t ha)
    by_cases hO : label_map_get t.2.1 = "O"
    · have he : emitEntity r 0 t = none := if_pos (Or.inl hO)
      have hb : (!(label_map_get t.2.1 == "O")) = false := by simp [hO]
      simp only [List.filterMap_cons, he]
      rw [List.filter_cons, hb]
      simpa using ih hrest
    · have he : emitEntity r 0 t = some
          { text := r.words.getD t.1 ""
            label := simple_label (label_map_get t.2.1)
            confidence := t.2.2
            bbox := r.boxes.getD t.1 ⟨0, 0, 0, 0⟩ } := by
        unfold emitEntity
        rw [if_neg]
        push_neg
        exact ⟨hO, ht.1, ht.2⟩
      have hb : (!(label_map_get t.2.1 == "O")) = true := by simp [hO]
      simp only [List.filterMap_cons, he]
      rw [List.filter_cons, hb]
      simpa using ih hrest

/-- C5: for an inference result with confidence scores in [0,1] and word
indices into the word list, decoding with threshold 1.01 yields no
entities; decoding with threshold 0 yields exactly one entity per
distinct word index whose first token's label is not the background
label "O": the entities are the non-background first tokens in stream
order, each word index appears at most once, a word index has a first
token iff some token of the stream carries it, and the token kept for a
word index is the first one carrying it. -/
theorem process_predictions_threshold_extremes (r : InferenceResult)
    (hconf : ∀ c ∈ r.confidence_scores, 0 ≤ c ∧ c ≤ 1)
    (hwords : ∀ w : ℕ, some w ∈ r.word_ids → w < r.words.length) :
    process_predictions r (101/100) = [] ∧
    process_predictions r 0 =
      ((firstWordTokens (tokenStream r) []).filter
          (fun t => !(label_map_get t.2.1 == "O"))).map
        (fun t =>
          { text := r.words.getD t.1 ""
            label := simple_label (label_map_get t.2.1)
            confidence := t.2.2
            bbox := r.boxes.getD t.1 ⟨0, 0, 0, 0⟩ }) ∧
    ((firstWordTokens (tokenStream r) []).map Prod.fst).Nodup ∧
    (∀ w : ℕ, w ∈ (firstWordTokens (tokenStream r) []).map Prod.fst ↔
        some w ∈ (tokenStream r).map Prod.fst) ∧
    (∀ t ∈ firstWordTokens (tokenStream r) [],
        (tokenStream r).find? (fun a => a.1 == some t.1) = some (some t.1, t.2)) := by
  have hbounds : ∀ t ∈ firstWordTokens (tokenStream r) [],
      0 ≤ t.2.2 ∧ t.1 < r.words.length := by
    intro t ht
    have hmem := mem_firstWordTokens (tokenStream r) [] t ht
    refine ⟨(hconf _ (tokenStream_conf_mem r _ hmem)).1, ?_⟩
    rcases tokenStream_fst_mem r _ hmem with h | h
    · simp at h
    · exact hwords t.1 h
  refine ⟨?_, ?_, firstWordTokens_fst_nodup _ _, ?_, firstWordTokens_first _ _⟩
  · rw [process_predictions, ppLoop_eq_filterMap, List.filterMap_eq_nil_iff]
    intro t ht
    have hc := (hconf _ (tokenStream_conf_mem r _ (mem_firstWordTokens _ _ t ht))).2
    unfold emitEntity
    rw [if_pos]
    exact Or.inr (Or.inl (lt_of_le_of_lt hc (by norm_num)))
  · rw [process_predictions, ppLoop_eq_filterMap]
    exact filterMap_emit_zero r _ hbounds
  · intro w
    rw [firstWordTokens_fst_mem_iff]
    simp

/-- Concrete inference result for the C5 witness: two tokens of word 0
(first label B-QUESTION), one background token of word 1. -/
def rThr : InferenceResult :=
  { predictions := [3, 5, 0]
    confidence_scores := [9/10, 1/2, 1]
    word_ids := [some 0, some 0, some 1]
    words := ["Name:", "John"]
    boxes := [⟨1, 2, 3, 4⟩, ⟨5, 6, 7, 8⟩] }

/-- Witness for `process_predictions_threshold_extremes` on `rThr`. -/
theorem process_predictions_threshold_extremes_witness :
    (∀ c ∈ rThr.confidence_scores, 0 ≤ c ∧ c ≤ 1) ∧
    (∀ w : ℕ, some w ∈ rThr.word_ids → w < rThr.words.length) ∧
    process_predictions rThr (101/100) = [] := by
  have h1 : ∀ c ∈ rThr.confidence_scores, 0 ≤ c ∧ c ≤ 1 := by
    intro c hc
    simp only [rThr, List.mem_cons, List.not_mem_nil, or_false] at hc
    rcases hc with rfl | rfl | rfl
    · constructor <;> norm_num
    · constructor <;> norm_num
    · constructor <;> norm_num
  have h2 : ∀ w : ℕ, some w ∈ rThr.word_ids → w < rThr.words.length := by
    intro w hw
    simp only [rThr, List.mem_cons, List.not_mem_nil, or_false] at hw
    rcases hw with h | h | h
    · obtain rfl : w = 0 := Option.some_inj.mp h
      decide
    · obtain rfl : w = 0 := Option.some_inj.mp h
      decide
    · obtain rfl : w = 1 := Option.some_inj.mp h
      decide
  exact ⟨h1, h2, (process_predictions_threshold_extremes rThr h1 h2).1⟩

/-- The `OCRResult` value type of `core/ocr/base.py`: text, pixel bounding
box and confidence of one detected text region. -/
structure OCRResult where
  text : String
  bbox : BBox
  confidence : ℚ
deriving DecidableEq

/-- An output entity dict of `format_output`: like `Entity` but with the
confidence rounded to three decimals. -/
structure OutEntity where
  text : String
  label : String
  confidence : ℚ
  bbox : BBox
deriving DecidableEq

/-- One element of the `results` list of `format_output`. -/
structure PageResult where
  page : ℕ
  entities : List OutEntity
deriving DecidableEq

/-- The `metadata` dict of `format_output`. -/
structure OutMetadata where
  model_version : String
  ocr_engine : String
  image_size : ℕ × ℕ
deriving DecidableEq

/-- The output dict of `format_output`. -/
structure ProcessingResult where
  status : String
  processing_time_ms : ℚ
  results : List PageResult
  metadata : OutMetadata
deriving DecidableEq

/-- Python `round(q, n)` modelled as exact rounding of a rational to n
decimal places (the claims never depend on the tie-breaking direction, so
round-half-to-even on binary floats is not modelled). -/
def pyRound (q : ℚ) (n : ℕ) : ℚ := (round (q * 10 ^ n) : ℚ) / 10 ^ n

/-- The function `format_output` of `core/model/postprocess.py`. -/
def format_output (entities : List Entity) (image_size : ℕ × ℕ)
    (processing_time_ms : ℚ) (model_version ocr_engine : String) : ProcessingResult :=
  { status := "success"
    processing_time_ms := pyRound processing_time_ms 2
    results :=
      [{ page := 1
         entities := entities.map fun e =>
           { text := e.text
             label := e.label
             confidence := pyRound e.confidence 3
             bbox := e.bbox } }]
    metadata :=
      { model_version := model_version
        ocr_engine := ocr_engine
        image_size := image_size } }

/-- The method `DocumentProcessor.process_image` of
`core/pipeline/document_processor.py`, with the collaborators passed
explicitly: `preprocess` (preprocessor), `size` (the image's (width,
height)), `extract_text` (OCR adapter), `infer` (model adapter). The
elapsed wall-clock time is supplied as the parameter `t`, a stage that
raises is an `Except.error` carrying the exception's message, and the
surrounding try block rewraps any failure as a `PipelineError`. -/
def process_image {Img : Type}
    (preprocess : Img → Except String Img)
    (size : Img → ℕ × ℕ)
    (extract_text : Img → Except String (List OCRResult))
    (infer : Img → List OCRResult → Except String InferenceResult)
    (confidence_threshold : ℚ) (ocr_engine : String) (t : ℚ)
    (source : Img) : Except String ProcessingResult :=
  match preprocess source with
  | Except.error e => Except.error ("Pipeline failed: " ++ e)
  | Except.ok image =>
    match extract_text image with
    | Except.error e => Except.error ("Pipeline failed: " ++ e)
    | Except.ok ocr_results =>
      if ocr_results.isEmpty then
        Except.ok (format_output [] (size image) t "layoutlmv3-funsd-v1" ocr_engine)
      else
        match infer image ocr_results with
        | Except.error e => Except.error ("Pipeline failed: " ++ e)
        | Except.ok ir =>
          Except.ok (format_output
            (aggregate_entities (process_predictions ir confidence_threshold))
            (size image) t "layoutlmv3-funsd-v1" ocr_engine)

/-- A batch item of `DocumentProcessor.process_batch`: either the result
dict of `process_image` or the dict with status "error" and the caught
exception's message under the key "error". -/
inductive BatchItem where
  | ok : ProcessingResult → BatchItem
  | failed : String → BatchItem
deriving DecidableEq

/-- The method `DocumentProcessor.process_batch`: iterate the sources,
appending the `process_image` result, or the error item when it raises. -/
def process_batch {Img : Type}
    (pImage : Img → Except String ProcessingResult) : List Img → List BatchItem
  | [] => []
  | source :: rest =>
    (match pImage source with
     | Except.ok r => BatchItem.ok r
     | Except.error e => BatchItem.failed e) :: process_batch pImage rest

/-- C6: `process_batch` returns one item per source, in order: the
`process_image` result where it succeeds and the error item carrying the
exception's message where it raises, and a failure on one item never
prevents the remaining items from being processed (each output position
depends only on its own source). -/
theorem process_batch_isolates_failures {Img : Type}
    (pImage : Img → Except String ProcessingResult) (sources : List Img) :
    (process_batch pImage sources).length = sources.length ∧
    ∀ i : ℕ, (process_batch pImage sources).get? i =
      (sources.get? i).map fun s =>
        match pImage s with
        | Except.ok r => BatchItem.ok r
        | Except.error e => BatchItem.failed e := by
  induction sources with
  | nil => exact ⟨rfl, fun i => by cases i <;> rfl⟩
  | cons s rest ih =>
    refine ⟨?_, ?_⟩
    · simpa [process_batch] using ih.1
    · intro i
      cases i with
      | zero => rfl
      | succ j => simpa [process_batch] using ih.2 j

/-- C7: when OCR returns an empty result list, `process_image` returns a
success result with zero entities and the processing time populated from
the elapsed time, for every model adapter and confidence threshold (the
model adapter and the postprocessor are not invoked: the result does not
depend on them). -/
theorem process_image_empty_ocr {Img : Type}
    (preprocess : Img → Except String Img) (size : Img → ℕ × ℕ)
    (extract_text : Img → Except String (List OCRResult))
    (infer : Img → List OCRResult → Except String InferenceResult)
    (confidence_threshold : ℚ) (ocr_engine : String) (t : ℚ)
    (source image : Img)
    (hpre : preprocess source = Except.ok image)
    (hocr : extract_text image = Except.ok []) :
    process_image preprocess size extract_text infer confidence_threshold
        ocr_engine t source =
      Except.ok
        { status := "success"
          processing_time_ms := pyRound t 2
          results := [{ page := 1, entities := [] }]
          metadata :=
            { model_version := "layoutlmv3-funsd-v1"
              ocr_engine := ocr_engine
              image_size := size image } } := by
  simp only [process_image, hpre, hocr]
  rfl

/-- Witness for `process_image_empty_ocr` with trivial collaborators on a
unit image type. -/
theorem process_image_empty_ocr_witness :
    (fun _ : Unit => (Except.ok () : Except String Unit)) () = Except.ok () ∧
    (fun _ : Unit => (Except.ok [] : Except String (List OCRResult))) () = Except.ok [] ∧
    process_image (fun _ : Unit => Except.ok ()) (fun _ => (600, 400))
        (fun _ => Except.ok []) (fun _ _ => Except.error "no model") (1/2)
        "easyocr" 5 () =
      Except.ok
        { status := "success"
          processing_time_ms := pyRound 5 2
          results := [{ page := 1, entities := [] }]
          metadata :=
            { model_version := "layoutlmv3-funsd-v1"
              ocr_engine := "easyocr"
              image_size := (600, 400) } } :=
  ⟨rfl, rfl,
    process_image_empty_ocr (fun _ => Except.ok ()) (fun _ => (600, 400))
      (fun _ => Except.ok []) (fun _ _ => Except.error "no model") (1/2)
      "easyocr" 5 () () rfl rfl⟩

/-- Fuel-bounded floor of the base-2 logarithm: for 1 ≤ n < 2^fuel,
`log2fuel fuel n` is the position of the highest set bit of n. Structural
recursion on the fuel keeps the function reducible inside proofs. -/
def log2fuel : ℕ → ℕ → ℕ
  | 0, _ => 0
  | fuel + 1, n => if 2 ≤ n then log2fuel fuel (n / 2) + 1 else 0

/-- Fuel-bounded ceiling of the base-2 logarithm: for 1 ≤ m ≤ 2^fuel,
`clog2fuel fuel m` is the least c with m ≤ 2^c. -/
def clog2fuel : ℕ → ℕ → ℕ
  | 0, _ => 0
  | fuel + 1, m => if 2 ≤ m then clog2fuel fuel ((m + 1) / 2) + 1 else 0

/-- Floor of log2, valid for 1 ≤ n < 2^64. -/
def log2floor (n : ℕ) : ℕ := log2fuel 64 n

/-- Ceiling of log2, valid for 1 ≤ m ≤ 2^64. -/
def clog2 (m : ℕ) : ℕ := clog2fuel 64 m

/-- Binary exponent of a positive rational in the binary64 range: the e
with 2^e ≤ q < 2^(e+1). -/
def qlog2 (q : ℚ) : ℤ :=
  if 1 ≤ q then (log2floor ⌊q⌋.toNat : ℤ) else -(clog2 ⌈q⁻¹⌉.toNat : ℤ)

/-- Round a rational to the nearest integer, ties to even — the IEEE 754
default rounding direction. -/
def rndNE (x : ℚ) : ℤ :=
  if x - ⌊x⌋ < 1 / 2 then ⌊x⌋
  else if (1 / 2 : ℚ) < x - ⌊x⌋ then ⌊x⌋ + 1
  else if ⌊x⌋ % 2 = 0 then ⌊x⌋ else ⌊x⌋ + 1

/-- Round a positive rational to the nearest binary64 value: 53-bit
significand, round to nearest, ties to even. The exponent range
(subnormals, overflow) is not modelled; this is exact for the magnitudes
arising in `resize_image`. -/
def flPos (q : ℚ) : ℚ :=
  (rndNE (q * 2 ^ ((52 : ℤ) - qlog2 q)) : ℚ) * 2 ^ (qlog2 q - 52)

/-- Round a rational to the nearest binary64 value. -/
def fl (q : ℚ) : ℚ :=
  if q = 0 then 0 else if q < 0 then -flPos (-q) else flPos q

/-- The function `resize_image` of `core/pipeline/image_utils.py`, modelled
on the image's (width, height). The source computes
`ratio = min(max_size / width, max_size / height)` and the two products in
IEEE binary64 arithmetic; integers below 2^53 convert to float exactly, so
each of the two divisions and the two multiplications is one correctly
rounded operation, modelled by `fl`. `min` on floats and Python `int`
truncation of the nonnegative products (floor, then `toNat`) are exact. -/
def resize_image (width height max_size : ℕ) (maintain_aspect : Bool) : ℕ × ℕ :=
  if width ≤ max_size ∧ height ≤ max_size then (width, height)
  else if maintain_aspect then
    let scale : ℚ :=
      min (fl ((max_size : ℚ) / (width : ℚ))) (fl ((max_size : ℚ) / (height : ℚ)))
    ((⌊fl ((width : ℚ) * scale)⌋).toNat, (⌊fl ((height : ℚ) * scale)⌋).toNat)
  else (max_size, max_size)

/-- The fuelled floor log2 never exceeds its argument's log: 2^log2fuel ≤ n. -/
theorem log2fuel_le : ∀ (fuel n : ℕ), 1 ≤ n → 2 ^ log2fuel fuel n ≤ n := by
  intro fuel
  induction fuel with
  | zero => intro n h1; simpa [log2fuel] using h1
  | succ fuel ih =>
    intro n h1
    by_cases h2 : 2 ≤ n
    · have hdiv : 1 ≤ n / 2 := by omega
      have h3 := ih (n / 2) hdiv
      simp only [log2fuel, if_pos h2]
      have h4 := Nat.div_add_mod n 2
      have h5 : 2 ^ (log2fuel fuel (n / 2) + 1) = 2 ^ log2fuel fuel (n / 2) * 2 := by ring
      omega
    · simp only [log2fuel, if_neg h2]
      simpa using h1

/-- The fuelled ceiling log2 reaches its argument when the fuel covers it. -/
theorem clog2fuel_ge : ∀ (fuel m : ℕ), m ≤ 2 ^ fuel → m ≤ 2 ^ clog2fuel fuel m := by
  intro fuel
  induction fuel with
  | zero => intro m hm; simpa [clog2fuel] using hm
  | succ fuel ih =>
    intro m hm
    by_cases h2 : 2 ≤ m
    · have hpow : (2 : ℕ) ^ (fuel + 1) = 2 ^ fuel * 2 := by ring
      have hfits : (m + 1) / 2 ≤ 2 ^ fuel := by omega
      have h3 := ih ((m + 1) / 2) hfits
      simp only [clog2fuel, if_pos h2]
      have h5 : 2 ^ (clog2fuel fuel ((m + 1) / 2) + 1) =
          2 ^ clog2fuel fuel ((m + 1) / 2) * 2 := by ring
      omega
    · simp only [clog2fuel, if_neg h2]
      have : 1 ≤ 2 ^ clog2fuel 0 m := Nat.one_le_two_pow
      omega

/-- Lower half of the binary-exponent characterization: 2^qlog2 q ≤ q. -/
theorem qlog2_le (q : ℚ) (hq : 0 < q)
    (hfuel : q < 1 → ⌈q⁻¹⌉.toNat ≤ 2 ^ 64) : (2 : ℚ) ^ qlog2 q ≤ q := by
  unfold qlog2
  by_cases h1 : 1 ≤ q
  · rw [if_pos h1, zpow_natCast]
    have h1' : (1 : ℤ) ≤ ⌊q⌋ := Int.le_floor.mpr (by exact_mod_cast h1)
    have hfl : 1 ≤ ⌊q⌋.toNat := by omega
    have h2 := log2fuel_le 64 ⌊q⌋.toNat hfl
    have h3 : ((2 : ℚ)) ^ log2floor ⌊q⌋.toNat ≤ (⌊q⌋.toNat : ℚ) := by exact_mod_cast h2
    have h4 : ((⌊q⌋.toNat : ℕ) : ℚ) ≤ q := by
      have h5 : ((⌊q⌋.toNat : ℤ) : ℚ) ≤ q := by
        rw [Int.toNat_of_nonneg (by omega)]
        exact Int.floor_le q
      exact_mod_cast h5
    exact h3.trans h4
  · rw [if_neg h1]
    have hq1 : q < 1 := not_le.mp h1
    have hqi0 : 0 < q⁻¹ := inv_pos.mpr hq
    have hcpos : (0 : ℤ) < ⌈q⁻¹⌉ := Int.ceil_pos.mpr hqi0
    have hmval : ((⌈q⁻¹⌉.toNat : ℤ)) = ⌈q⁻¹⌉ := Int.toNat_of_nonneg hcpos.le
    have h2 := clog2fuel_ge 64 ⌈q⁻¹⌉.toNat (hfuel hq1)
    have h3 : q⁻¹ ≤ ((2 : ℚ)) ^ clog2 ⌈q⁻¹⌉.toNat := by
      calc q⁻¹ ≤ (⌈q⁻¹⌉ : ℚ) := Int.le_ceil q⁻¹
        _ = ((⌈q⁻¹⌉.toNat : ℕ) : ℚ) := by exact_mod_cast hmval.symm
        _ ≤ ((2 : ℚ)) ^ clog2 ⌈q⁻¹⌉.toNat := by exact_mod_cast h2
    rw [zpow_neg, zpow_natCast]
    have h4 := inv_le_inv_of_le hqi0 h3
    rwa [inv_inv] at h4

/-- Nearest-integer rounding is within half a unit. -/
theorem rndNE_close (x : ℚ) : |(rndNE x : ℚ) - x| ≤ 1 / 2 := by
  have h1 : (⌊x⌋ : ℚ) ≤ x := Int.floor_le x
  have h2 : x < ⌊x⌋ + 1 := Int.lt_floor_add_one x
  unfold rndNE
  split_ifs with hlt hgt hev
  · rw [abs_le]; constructor <;> linarith
  · rw [abs_le]; push_cast; constructor <;> linarith
  · rw [abs_le]; constructor <;> linarith
  · rw [abs_le]; push_cast; constructor <;> linarith

/-- Relative error of one binary64 rounding: |fl q − q| ≤ q · 2^(−53)
for positive q whose reciprocal the fuel covers. -/
theorem flPos_close (q : ℚ) (hq : 0 < q)
    (hfuel : q < 1 → ⌈q⁻¹⌉.toNat ≤ 2 ^ 64) : |flPos q - q| ≤ q / 2 ^ 53 := by
  unfold flPos
  have h1 := rndNE_close (q * 2 ^ ((52 : ℤ) - qlog2 q))
  have h2 : (2 : ℚ) ^ qlog2 q ≤ q := qlog2_le q hq hfuel
  have hpow : (0 : ℚ) < 2 ^ (qlog2 q - 52) := by positivity
  have key : (rndNE (q * 2 ^ ((52 : ℤ) - qlog2 q)) : ℚ) * 2 ^ (qlog2 q - 52) - q =
      ((rndNE (q * 2 ^ ((52 : ℤ) - qlog2 q)) : ℚ) - q * 2 ^ ((52 : ℤ) - qlog2 q)) *
        2 ^ (qlog2 q - 52) := by
    rw [sub_mul]
    congr 1
    rw [mul_assoc, ← zpow_add₀ (two_ne_zero : (2 : ℚ) ≠ 0)]
    norm_num
  rw [key, abs_mul, abs_of_pos hpow]
  calc |(rndNE (q * 2 ^ ((52 : ℤ) - qlog2 q)) : ℚ) - q * 2 ^ ((52 : ℤ) - qlog2 q)| *
        2 ^ (qlog2 q - 52)
      ≤ 1 / 2 * 2 ^ (qlog2 q - 52) := mul_le_mul_of_nonneg_right h1 hpow.le
    _ = (2 : ℚ) ^ qlog2 q / 2 ^ 53 := by
        rw [eq_div_iff (by positivity : ((2 : ℚ) ^ (53 : ℕ)) ≠ 0)]
        rw [show (1 / 2 : ℚ) = 2 ^ (-1 : ℤ) by norm_num,
          show ((2 : ℚ)) ^ (53 : ℕ) = 2 ^ ((53 : ℤ)) from (zpow_natCast 2 53).symm,
          ← zpow_add₀ (two_ne_zero : (2 : ℚ) ≠ 0),
          ← zpow_add₀ (two_ne_zero : (2 : ℚ) ≠ 0)]
        congr 1
        ring
    _ ≤ q / 2 ^ 53 :=
        (div_le_div_right (by positivity : (0 : ℚ) < 2 ^ 53)).mpr h2

/-- Rounding error of `fl` on positive input. -/
theorem fl_close (q : ℚ) (hq : 0 < q)
    (hfuel : q < 1 → ⌈q⁻¹⌉.toNat ≤ 2 ^ 64) : |fl q - q| ≤ q / 2 ^ 53 := by
  unfold fl
  rw [if_neg (ne_of_gt hq), if_neg (not_lt.mpr hq.le)]
  exact flPos_close q hq hfuel

/-- Discharges the fuel side condition for reciprocals up to 200000. -/
theorem fuel_ok (q : ℚ) (h : q⁻¹ ≤ 200000) : q < 1 → ⌈q⁻¹⌉.toNat ≤ 2 ^ 64 := by
  intro _
  have h1 : ⌈q⁻¹⌉ ≤ 200000 := Int.ceil_le.mpr (by exact_mod_cast h)
  have h2 : (200000 : ℕ) ≤ 2 ^ 64 := by norm_num
  omega

/-- Binary64 value of the ratio 2000/2105: its significand is the nearest
integer to (400/421) * 2^53, and the value lies just below the exact
ratio. -/
theorem fl_ratio_2105 : fl ((2000 : ℚ) / 2105) = 8557909030632771 / 2 ^ 53 := by
  have hq0 : ¬ ((2000 : ℚ) / 2105 = 0) := by norm_num
  have hq1 : ¬ ((2000 : ℚ) / 2105 < 0) := by norm_num
  have he : qlog2 ((2000 : ℚ) / 2105) = -1 := by
    have hlt : ¬ (1 ≤ (2000 : ℚ) / 2105) := by norm_num
    have hceil : ⌈((2000 : ℚ) / 2105)⁻¹⌉ = 2 := by
      rw [show ((2000 : ℚ) / 2105)⁻¹ = 421 / 400 by norm_num, Int.ceil_eq_iff]
      constructor <;> norm_num
    unfold qlog2
    rw [if_neg hlt, hceil]
    decide
  have hm : rndNE (((2000 : ℚ) / 2105) * 2 ^ ((52 : ℤ) - qlog2 ((2000 : ℚ) / 2105))) =
      8557909030632771 := by
    rw [he]
    have hx : ((2000 : ℚ) / 2105) * 2 ^ ((52 : ℤ) - (-1)) = 3602879701896396800 / 421 := by
      rw [show ((52 : ℤ) - (-1)) = 53 by norm_num,
        show ((2 : ℚ)) ^ ((53 : ℤ)) = 2 ^ ((53 : ℕ)) from zpow_natCast 2 53]
      norm_num
    rw [hx]
    have hfl : ⌊(3602879701896396800 : ℚ) / 421⌋ = 8557909030632771 := by
      rw [Int.floor_eq_iff]
      constructor <;> norm_num
    unfold rndNE
    rw [hfl, if_pos (by norm_num)]
  unfold fl
  rw [if_neg hq0, if_neg hq1]
  unfold flPos
  rw [hm, he, show ((-1 : ℤ) - 52) = -53 by norm_num,
    show ((2 : ℚ)) ^ ((-53 : ℤ)) = ((2 : ℚ) ^ ((53 : ℕ)))⁻¹ by
      rw [zpow_neg]
      congr 1
      rw [show ((53 : ℤ)) = ((53 : ℕ) : ℤ) from rfl, zpow_natCast],
    ← div_eq_mul_inv]
  norm_num

/-- Binary64 value of 2105 times the rounded ratio: one ulp below 2000, so
its truncation is 1999. -/
theorem fl_prod_2105 :
    fl ((2105 : ℚ) * (8557909030632771 / 2 ^ 53)) = 8796093022207999 / 2 ^ 42 := by
  have hval : (2105 : ℚ) * (8557909030632771 / 2 ^ 53) =
      18014398509481982955 / 9007199254740992 := by norm_num
  rw [hval]
  have hq0 : ¬ ((18014398509481982955 : ℚ) / 9007199254740992 = 0) := by norm_num
  have hq1 : ¬ ((18014398509481982955 : ℚ) / 9007199254740992 < 0) := by norm_num
  have he : qlog2 ((18014398509481982955 : ℚ) / 9007199254740992) = 10 := by
    have hge : (1 : ℚ) ≤ 18014398509481982955 / 9007199254740992 := by norm_num
    have hfl : ⌊(18014398509481982955 : ℚ) / 9007199254740992⌋ = 1999 := by
      rw [Int.floor_eq_iff]
      constructor <;> norm_num
    unfold qlog2
    rw [if_pos hge, hfl]
    decide
  have hm : rndNE (((18014398509481982955 : ℚ) / 9007199254740992) *
      2 ^ ((52 : ℤ) - qlog2 ((18014398509481982955 : ℚ) / 9007199254740992))) =
      8796093022207999 := by
    rw [he]
    have hx : ((18014398509481982955 : ℚ) / 9007199254740992) * 2 ^ ((52 : ℤ) - 10) =
        18014398509481982955 / 2048 := by
      rw [show ((52 : ℤ) - 10) = 42 by norm_num,
        show ((2 : ℚ)) ^ ((42 : ℤ)) = 2 ^ ((42 : ℕ)) from zpow_natCast 2 42]
      norm_num
    rw [hx]
    have hfl : ⌊(18014398509481982955 : ℚ) / 2048⌋ = 8796093022207999 := by
      rw [Int.floor_eq_iff]
      constructor <;> norm_num
    unfold rndNE
    rw [hfl, if_pos (by norm_num)]
  unfold fl
  rw [if_neg hq0, if_neg hq1]
  unfold flPos
  rw [hm, he, show ((10 : ℤ) - 52) = -42 by norm_num,
    show ((2 : ℚ)) ^ ((-42 : ℤ)) = ((2 : ℚ) ^ ((42 : ℕ)))⁻¹ by
      rw [zpow_neg]
      congr 1
      rw [show ((42 : ℤ)) = ((42 : ℕ) : ℤ) from rfl, zpow_natCast],
    ← div_eq_mul_inv]
  norm_num

/-- C9 counterexample: on a 2105 x 2105 image with the 2000 px cap the
program computes int(2105 * float(2000/2105)) = 1999 in binary64
arithmetic, one below the exact truncated scaling 2000, so the claimed
exact-ratio output formula fails. -/
theorem resize_image_not_exact_ratio :
    resize_image 2105 2105 2000 true = (1999, 1999) ∧
    ((⌊(2105 : ℚ) * min ((2000 : ℚ) / 2105) ((2000 : ℚ) / 2105)⌋).toNat,
        (⌊(2105 : ℚ) * min ((2000 : ℚ) / 2105) ((2000 : ℚ) / 2105)⌋).toNat) =
      ((2000 : ℕ), (2000 : ℕ)) ∧
    resize_image 2105 2105 2000 true ≠
      ((⌊(2105 : ℚ) * min ((2000 : ℚ) / 2105) ((2000 : ℚ) / 2105)⌋).toNat,
       (⌊(2105 : ℚ) * min ((2000 : ℚ) / 2105) ((2000 : ℚ) / 2105)⌋).toNat) := by
  have hexact : ⌊(2105 : ℚ) * min ((2000 : ℚ) / 2105) ((2000 : ℚ) / 2105)⌋ = 2000 := by
    rw [min_self, show (2105 : ℚ) * ((2000 : ℚ) / 2105) = 2000 by norm_num,
      Int.floor_eq_iff]
    constructor <;> norm_num
  have hcond : ¬ ((2105 : ℕ) ≤ 2000 ∧ (2105 : ℕ) ≤ 2000) := by decide
  have himpl : resize_image 2105 2105 2000 true = (1999, 1999) := by
    simp only [resize_image, if_neg hcond, if_true, Nat.cast_ofNat]
    rw [min_self, fl_ratio_2105, fl_prod_2105]
    have hfl : ⌊(8796093022207999 : ℚ) / 2 ^ 42⌋ = 1999 := by
      rw [Int.floor_eq_iff]
      constructor <;> norm_num
    rw [hfl]
    rfl
  refine ⟨himpl, by rw [hexact]; rfl, ?_⟩
  rw [himpl, hexact]
  decide

/-- Two-sided bound for the min of the two rounded ratios in terms of the
exact min. -/
theorem min_fl_bounds (a b : ℚ) (hfa : |fl a - a| ≤ a / 2 ^ 53)
    (hfb : |fl b - b| ≤ b / 2 ^ 53) :
    min a b - min a b / 2 ^ 53 ≤ min (fl a) (fl b) ∧
      min (fl a) (fl b) ≤ min a b + min a b / 2 ^ 53 := by
  obtain ⟨ha1, ha2⟩ := abs_le.mp hfa
  obtain ⟨hb1, hb2⟩ := abs_le.mp hfb
  rcases le_total a b with hab | hab
  · rw [min_eq_left hab]
    refine ⟨le_min (by linarith) (by linarith), ?_⟩
    calc min (fl a) (fl b) ≤ fl a := min_le_left _ _
      _ ≤ a + a / 2 ^ 53 := by linarith
  · rw [min_eq_right hab]
    refine ⟨le_min (by linarith) (by linarith), ?_⟩
    calc min (fl a) (fl b) ≤ fl b := min_le_right _ _
      _ ≤ b + b / 2 ^ 53 := by linarith

/-- The rounded product d * scale stays within half a unit of the exact
product d * rm when scale is within one rounding of rm and the magnitudes
are in the resize range. -/
theorem fl_mul_scale_close (d scale rm : ℚ) (hd1 : 1 ≤ d) (hrm : 0 < rm)
    (hrmB : 1 / 100000 ≤ rm) (hEB : d * rm ≤ 100000)
    (hlo : rm - rm / 2 ^ 53 ≤ scale) (hhi : scale ≤ rm + rm / 2 ^ 53) :
    |fl (d * scale) - d * rm| ≤ 1 / 2 ∧ 0 < fl (d * scale) := by
  have hd0 : 0 < d := lt_of_lt_of_le one_pos hd1
  have hs0 : 0 < scale := by linarith
  have hq0 : 0 < d * scale := mul_pos hd0 hs0
  have hq_lo : d * rm - d * (rm / 2 ^ 53) ≤ d * scale := by
    have h := mul_le_mul_of_nonneg_left hlo hd0.le
    linarith [h]
  have hq_hi : d * scale ≤ d * rm + d * (rm / 2 ^ 53) := by
    have h := mul_le_mul_of_nonneg_left hhi hd0.le
    linarith [h]
  have hterm : d * (rm / 2 ^ 53) ≤ 100000 / 2 ^ 53 := by
    rw [← mul_div_assoc]
    exact (div_le_div_right (by norm_num : (0 : ℚ) < 2 ^ 53)).mpr hEB
  have hq_ge : 1 / 200000 ≤ d * scale := by
    have h1 : rm / 2 ^ 53 ≤ rm / 2 := by linarith
    have h2 : rm / 2 ≤ scale := by linarith
    calc (1 : ℚ) / 200000 = 1 / 100000 / 2 := by norm_num
      _ ≤ rm / 2 := by linarith
      _ ≤ scale := h2
      _ ≤ d * scale := le_mul_of_one_le_left hs0.le hd1
  have hfuel : d * scale < 1 → ⌈(d * scale)⁻¹⌉.toNat ≤ 2 ^ 64 := by
    apply fuel_ok
    have h3 : (200000 : ℚ)⁻¹ ≤ d * scale := by
      rw [show ((200000 : ℚ))⁻¹ = 1 / 200000 by norm_num]
      exact hq_ge
    have h4 := inv_le_inv_of_le (by norm_num : (0 : ℚ) < (200000 : ℚ)⁻¹) h3
    rwa [inv_inv] at h4
  obtain ⟨hc1, hc2⟩ := abs_le.mp (fl_close (d * scale) hq0 hfuel)
  have hq_up2 : d * scale ≤ 200000 := by linarith
  have hq53 : d * scale / 2 ^ 53 ≤ 200000 / 2 ^ 53 :=
    (div_le_div_right (by norm_num : (0 : ℚ) < 2 ^ 53)).mpr hq_up2
  refine ⟨abs_le.mpr ⟨by linarith, by linarith⟩, ?_⟩
  have h5 : d * scale / 2 ^ 53 < d * scale := by linarith
  linarith

/-- Values within half a unit of each other have floors within one. -/
theorem floor_within_one (x E : ℚ) (h : |x - E| ≤ 1 / 2) :
    ⌊E⌋ - 1 ≤ ⌊x⌋ ∧ ⌊x⌋ ≤ ⌊E⌋ + 1 := by
  obtain ⟨h1, h2⟩ := abs_le.mp h
  constructor
  · have h3 : E + ((-1 : ℤ) : ℚ) ≤ x := by push_cast; linarith
    have h4 := Int.floor_mono h3
    rw [Int.floor_add_int] at h4
    omega
  · have h3 : x ≤ E + ((1 : ℤ) : ℚ) := by push_cast; linarith
    have h4 := Int.floor_mono h3
    rw [Int.floor_add_int] at h4
    omega

/-- C9 (amended): `resize_image` returns the input unchanged whenever both
dimensions are at most the cap — it never upscales — and otherwise scales
both dimensions by the single binary64 ratio min(cap/width, cap/height):
for positive dimensions and cap at most 100000, each output coordinate is
within 1 of the exact truncated scaling floor(dim * min(cap/width,
cap/height)) and neither output dimension exceeds the cap. -/
theorem resize_image_float_spec (width height max_size : ℕ)
    (hw : 0 < width) (hh : 0 < height) (hm : 0 < max_size)
    (hwB : width ≤ 100000) (hhB : height ≤ 100000) (hmB : max_size ≤ 100000) :
    (width ≤ max_size ∧ height ≤ max_size →
      resize_image width height max_size true = (width, height)) ∧
    (¬ (width ≤ max_size ∧ height ≤ max_size) →
      resize_image width height max_size true =
        ((⌊fl ((width : ℚ) * min (fl ((max_size : ℚ) / (width : ℚ)))
            (fl ((max_size : ℚ) / (height : ℚ))))⌋).toNat,
         (⌊fl ((height : ℚ) * min (fl ((max_size : ℚ) / (width : ℚ)))
            (fl ((max_size : ℚ) / (height : ℚ))))⌋).toNat) ∧
      (resize_image width height max_size true).1 ≤ max_size ∧
      (resize_image width height max_size true).2 ≤ max_size ∧
      ⌊(width : ℚ) * min ((max_size : ℚ) / (width : ℚ)) ((max_size : ℚ) / (height : ℚ))⌋ - 1 ≤
        ((resize_image width height max_size true).1 : ℤ) ∧
      ((resize_image width height max_size true).1 : ℤ) ≤
        ⌊(width : ℚ) * min ((max_size : ℚ) / (width : ℚ)) ((max_size : ℚ) / (height : ℚ))⌋ + 1 ∧
      ⌊(height : ℚ) * min ((max_size : ℚ) / (width : ℚ)) ((max_size : ℚ) / (height : ℚ))⌋ - 1 ≤
        ((resize_image width height max_size true).2 : ℤ) ∧
      ((resize_image width height max_size true).2 : ℤ) ≤
        ⌊(height : ℚ) * min ((max_size : ℚ) / (width : ℚ)) ((max_size : ℚ) / (height : ℚ))⌋ + 1) := by
  constructor
  · intro hle
    simp only [resize_image, if_pos hle]
  · intro hgt
    have hwq : (0 : ℚ) < width := by exact_mod_cast hw
    have hhq : (0 : ℚ) < height := by exact_mod_cast hh
    have hmq : (0 : ℚ) < max_size := by exact_mod_cast hm
    have hwq1 : (1 : ℚ) ≤ width := by exact_mod_cast hw
    have hhq1 : (1 : ℚ) ≤ height := by exact_mod_cast hh
    have hmq1 : (1 : ℚ) ≤ max_size := by exact_mod_cast hm
    have hwqB : ((width : ℚ)) ≤ 100000 := by exact_mod_cast hwB
    have hhqB : ((height : ℚ)) ≤ 100000 := by exact_mod_cast hhB
    have hmqB : ((max_size : ℚ)) ≤ 100000 := by exact_mod_cast hmB
    have ha0 : (0 : ℚ) < (max_size : ℚ) / (width : ℚ) := by positivity
    have hb0 : (0 : ℚ) < (max_size : ℚ) / (height : ℚ) := by positivity
    have hainv : ((max_size : ℚ) / (width : ℚ))⁻¹ ≤ 200000 := by
      rw [inv_div]
      calc (width : ℚ) / (max_size : ℚ) ≤ (width : ℚ) := div_le_self hwq.le hmq1
        _ ≤ 200000 := by linarith
    have hbinv : ((max_size : ℚ) / (height : ℚ))⁻¹ ≤ 200000 := by
      rw [inv_div]
      calc (height : ℚ) / (max_size : ℚ) ≤ (height : ℚ) := div_le_self hhq.le hmq1
        _ ≤ 200000 := by linarith
    have hfa := fl_close _ ha0 (fuel_ok _ hainv)
    have hfb := fl_close _ hb0 (fuel_ok _ hbinv)
    obtain ⟨hs_lo, hs_hi⟩ := min_fl_bounds _ _ hfa hfb
    have hrm0 : (0 : ℚ) <
        min ((max_size : ℚ) / (width : ℚ)) ((max_size : ℚ) / (height : ℚ)) := lt_min ha0 hb0
    have hrmB : (1 : ℚ) / 100000 ≤
        min ((max_size : ℚ) / (width : ℚ)) ((max_size : ℚ) / (height : ℚ)) := by
      apply le_min
      · rw [div_le_div_iff (by norm_num : (0 : ℚ) < 100000) hwq]
        nlinarith
      · rw [div_le_div_iff (by norm_num : (0 : ℚ) < 100000) hhq]
        nlinarith
    have hEw : (width : ℚ) *
        min ((max_size : ℚ) / (width : ℚ)) ((max_size : ℚ) / (height : ℚ)) ≤
        (max_size : ℚ) := by
      calc (width : ℚ) * min ((max_size : ℚ) / (width : ℚ)) ((max_size : ℚ) / (height : ℚ))
          ≤ (width : ℚ) * ((max_size : ℚ) / (width : ℚ)) :=
            mul_le_mul_of_nonneg_left (min_le_left _ _) hwq.le
        _ = (max_size : ℚ) := by field_simp
    have hEh : (height : ℚ) *
        min ((max_size : ℚ) / (width : ℚ)) ((max_size : ℚ) / (height : ℚ)) ≤
        (max_size : ℚ) := by
      calc (height : ℚ) * min ((max_size : ℚ) / (width : ℚ)) ((max_size : ℚ) / (height : ℚ))
          ≤ (height : ℚ) * ((max_size : ℚ) / (height : ℚ)) :=
            mul_le_mul_of_nonneg_left (min_le_right _ _) hhq.le
        _ = (max_size : ℚ) := by field_simp
    obtain ⟨hclose_w, hpos_w⟩ := fl_mul_scale_close (width : ℚ)
      (min (fl ((max_size : ℚ) / (width : ℚ))) (fl ((max_size : ℚ) / (height : ℚ))))
      (min ((max_size : ℚ) / (width : ℚ)) ((max_size : ℚ) / (height : ℚ)))
      hwq1 hrm0 hrmB (hEw.trans hmqB) hs_lo hs_hi
    obtain ⟨hclose_h, hpos_h⟩ := fl_mul_scale_close (height : ℚ)
      (min (fl ((max_size : ℚ) / (width : ℚ))) (fl ((max_size : ℚ) / (height : ℚ))))
      (min ((max_size : ℚ) / (width : ℚ)) ((max_size : ℚ) / (height : ℚ)))
      hhq1 hrm0 hrmB (hEh.trans hmqB) hs_lo hs_hi
    have heq : resize_image width height max_size true =
        ((⌊fl ((width : ℚ) * min (fl ((max_size : ℚ) / (width : ℚ)))
            (fl ((max_size : ℚ) / (height : ℚ))))⌋).toNat,
         (⌊fl ((height : ℚ) * min (fl ((max_size : ℚ) / (width : ℚ)))
            (fl ((max_size : ℚ) / (height : ℚ))))⌋).toNat) := by
      simp only [resize_image, if_neg hgt, if_true]
    have hwo := floor_within_one _ _ hclose_w
    have hho := floor_within_one _ _ hclose_h
    have hnn_w : 0 ≤ ⌊fl ((width : ℚ) * min (fl ((max_size : ℚ) / (width : ℚ)))
        (fl ((max_size : ℚ) / (height : ℚ))))⌋ := Int.floor_nonneg.mpr hpos_w.le
    have hnn_h : 0 ≤ ⌊fl ((height : ℚ) * min (fl ((max_size : ℚ) / (width : ℚ)))
        (fl ((max_size : ℚ) / (height : ℚ))))⌋ := Int.floor_nonneg.mpr hpos_h.le
    have hcap_w : ⌊fl ((width : ℚ) * min (fl ((max_size : ℚ) / (width : ℚ)))
        (fl ((max_size : ℚ) / (height : ℚ))))⌋ ≤ (max_size : ℤ) := by
      have h5 : fl ((width : ℚ) * min (fl ((max_size : ℚ) / (width : ℚ)))
          (fl ((max_size : ℚ) / (height : ℚ)))) < ((max_size : ℤ) + 1 : ℤ) := by
        obtain ⟨h6, h7⟩ := abs_le.mp hclose_w
        push_cast
        linarith
      have h8 := Int.floor_lt.mpr h5
      omega
    have hcap_h : ⌊fl ((height : ℚ) * min (fl ((max_size : ℚ) / (width : ℚ)))
        (fl ((max_size : ℚ) / (height : ℚ))))⌋ ≤ (max_size : ℤ) := by
      have h5 : fl ((height : ℚ) * min (fl ((max_size : ℚ) / (width : ℚ)))
          (fl ((max_size : ℚ) / (height : ℚ)))) < ((max_size : ℤ) + 1 : ℤ) := by
        obtain ⟨h6, h7⟩ := abs_le.mp hclose_h
        push_cast
        linarith
      have h8 := Int.floor_lt.mpr h5
      omega
    rw [heq]
    refine ⟨rfl, ?_, ?_, ?_, ?_, ?_, ?_⟩
    · exact Int.toNat_le.mpr hcap_w
    · exact Int.toNat_le.mpr hcap_h
    · rw [Int.toNat_of_nonneg hnn_w]
      exact hwo.1
    · rw [Int.toNat_of_nonneg hnn_w]
      exact hwo.2
    · rw [Int.toNat_of_nonneg hnn_h]
      exact hho.1
    · rw [Int.toNat_of_nonneg hnn_h]
      exact hho.2

/-- Witness for `resize_image_float_spec`: a 3000 x 1500 image with the
default 2000 px cap. -/
theorem resize_image_float_spec_witness :
    0 < 3000 ∧ 0 < 1500 ∧ 0 < 2000 ∧ 3000 ≤ 100000 ∧ 1500 ≤ 100000 ∧ 2000 ≤ 100000 ∧
    (¬ ((3000 : ℕ) ≤ 2000 ∧ (1500 : ℕ) ≤ 2000) →
      resize_image 3000 1500 2000 true =
        ((⌊fl ((3000 : ℚ) * min (fl ((2000 : ℚ) / (3000 : ℚ)))
            (fl ((2000 : ℚ) / (1500 : ℚ))))⌋).toNat,
         (⌊fl ((1500 : ℚ) * min (fl ((2000 : ℚ) / (3000 : ℚ)))
            (fl ((2000 : ℚ) / (1500 : ℚ))))⌋).toNat) ∧
      (resize_image 3000 1500 2000 true).1 ≤ 2000 ∧
      (resize_image 3000 1500 2000 true).2 ≤ 2000 ∧
      ⌊(3000 : ℚ) * min ((2000 : ℚ) / (3000 : ℚ)) ((2000 : ℚ) / (1500 : ℚ))⌋ - 1 ≤
        ((resize_image 3000 1500 2000 true).1 : ℤ) ∧
      ((resize_image 3000 1500 2000 true).1 : ℤ) ≤
        ⌊(3000 : ℚ) * min ((2000 : ℚ) / (3000 : ℚ)) ((2000 : ℚ) / (1500 : ℚ))⌋ + 1 ∧
      ⌊(1500 : ℚ) * min ((2000 : ℚ) / (3000 : ℚ)) ((2000 : ℚ) / (1500 : ℚ))⌋ - 1 ≤
        ((resize_image 3000 1500 2000 true).2 : ℤ) ∧
      ((resize_image 3000 1500 2000 true).2 : ℤ) ≤
        ⌊(1500 : ℚ) * min ((2000 : ℚ) / (3000 : ℚ)) ((2000 : ℚ) / (1500 : ℚ))⌋ + 1) := by
  have h := (resize_image_float_spec 3000 1500 2000 (by decide) (by decide) (by decide)
    (by decide) (by decide) (by decide)).2
  refine ⟨by decide, by decide, by decide, by decide, by decide, by decide, ?_⟩
  intro hgt
  have h2 := h hgt
  push_cast at h2 ⊢
  exact h2

/-- A bbox dict as `export_csv` reads it: every key may be missing. -/
structure RawBBox where
  x1 : Option ℤ
  y1 : Option ℤ
  x2 : Option ℤ
  y2 : Option ℤ
deriving DecidableEq

/-- An entity dict as the exporters read it (`entity.get(...)`): every key
may be missing. -/
structure RawEntity where
  text : Option String
  label : Option String
  confidence : Option ℚ
  bbox : Option RawBBox
deriving DecidableEq

/-- A page dict of the `results` list as the exporters read it. -/
structure RawPage where
  page : Option ℤ
  entities : Option (List RawEntity)
deriving DecidableEq

/-- A processing-result dict as the exporters read it (`result.get(...)`):
every key may be missing. -/
structure RawResult where
  status : Option String
  processing_time_ms : Option ℚ
  results : Option (List RawPage)
  metadata : Option (List (String × String))
deriving DecidableEq

/-- A value passed to `csv.writer.writerow`: the exporters write strings,
Python ints and confidences. -/
inductive Cell where
  | cs : String → Cell
  | ci : ℤ → Cell
  | cq : ℚ → Cell
deriving DecidableEq

/-- Minimal quoting of the csv module's default excel dialect: a field is
quoted, with inner quotes doubled, only when it contains a delimiter,
quote or newline character. -/
def csvField (s : String) : String :=
  if s.data.contains ',' || s.data.contains '\"' || s.data.contains '\n' ||
      s.data.contains '\r' then
    "\"" ++ s.replace "\"" "\"\"" ++ "\""
  else s

/-- Text written by `csv.writer` for one cell. The decimal rendering of
confidence floats is abstracted by the exact rational's textual form; no
theorem depends on it. -/
def renderCell : Cell → String
  | Cell.cs s => csvField s
  | Cell.ci n => toString n
  | Cell.cq q => toString q

/-- One physical CSV line: cells joined by commas. -/
def renderRow (row : List Cell) : String :=
  String.intercalate "," (row.map renderCell)

/-- The header row `export_csv` writes first. -/
def csvHeader : List Cell :=
  [Cell.cs "page", Cell.cs "text", Cell.cs "label", Cell.cs "confidence",
   Cell.cs "x1", Cell.cs "y1", Cell.cs "x2", Cell.cs "y2"]

/-- The row `export_csv` writes for one entity of a page: missing string
fields default to "", missing confidence and bbox coordinates to 0. -/
def entityRow (page : ℤ) (e : RawEntity) : List Cell :=
  let bbox := e.bbox.getD ⟨none, none, none, none⟩
  [Cell.ci page, Cell.cs (e.text.getD ""), Cell.cs (e.label.getD ""),
   Cell.cq (e.confidence.getD 0), Cell.ci (bbox.x1.getD 0), Cell.ci (bbox.y1.getD 0),
   Cell.ci (bbox.x2.getD 0), Cell.ci (bbox.y2.getD 0)]

/-- All rows `export_csv` passes to the csv writer: the header, then one
row per entity of each page of `result.get("results", [])`, with
`page_result.get("page", 1)` as the page column. -/
def csv_rows (r : RawResult) : List (List Cell) :=
  csvHeader ::
    (r.results.getD []).bind fun p => (p.entities.getD []).map (entityRow (p.page.getD 1))

/-- The lines of the CSV output, in order, without line terminators. -/
def csv_lines (r : RawResult) : List String :=
  (csv_rows r).map renderRow

/-- The function `export_csv` of `core/pipeline/export.py`: the csv module
terminates every row with CRLF. -/
def export_csv (r : RawResult) : String :=
  String.join ((csv_lines r).map fun line => line ++ "\r\n")

/-- Serialization of an optional dict entry as a JSON object member. -/
def jsonMember (key : String) : Option String → Option String
  | none => none
  | some v => some ("\"" ++ key ++ "\": " ++ v)

/-- A JSON object from its present members. -/
def jsonObj (members : List (Option String)) : String :=
  "\x7b" ++ String.intercalate ", " (members.filterMap id) ++ "\x7d"

/-- A JSON string literal (escaping of special characters abstracted). -/
def jsonStr (s : String) : String := "\"" ++ s ++ "\""

/-- A JSON array from the serializations of its elements. -/
def jsonArr (elems : List String) : String :=
  "[" ++ String.intercalate ", " elems ++ "]"

/-- JSON serialization of a bbox dict. -/
def jsonOfBBox (b : RawBBox) : String :=
  jsonObj
    [jsonMember "x1" (b.x1.map toString), jsonMember "y1" (b.y1.map toString),
     jsonMember "x2" (b.x2.map toString), jsonMember "y2" (b.y2.map toString)]

/-- JSON serialization of an entity dict. -/
def jsonOfEntity (e : RawEntity) : String :=
  jsonObj
    [jsonMember "text" (e.text.map jsonStr),
     jsonMember "label" (e.label.map jsonStr),
     jsonMember "confidence" (e.confidence.map toString),
     jsonMember "bbox" (e.bbox.map jsonOfBBox)]

/-- JSON serialization of a page dict. -/
def jsonOfPage (p : RawPage) : String :=
  jsonObj
    [jsonMember "page" (p.page.map toString),
     jsonMember "entities" (p.entities.map fun es => jsonArr (es.map jsonOfEntity))]

/-- The function `export_json` of `core/pipeline/export.py`, i.e.
`json.dumps(result, indent=2)`, modelled at reduced fidelity: the object
structure mirrors the dict, while indentation, number formatting and
string escaping are abstracted. No claim depends on this output. -/
def export_json (r : RawResult) : String :=
  jsonObj
    [jsonMember "status" (r.status.map jsonStr),
     jsonMember "processing_time_ms" (r.processing_time_ms.map toString),
     jsonMember "results" (r.results.map fun ps => jsonArr (ps.map jsonOfPage)),
     jsonMember "metadata" (r.metadata.map fun kvs =>
       jsonObj (kvs.map fun kv => some ("\"" ++ kv.1 ++ "\": " ++ jsonStr kv.2)))]

/-- An XML element with textual content. -/
def xmlElem (tag content : String) : String :=
  "<" ++ tag ++ ">" ++ content ++ "</" ++ tag ++ ">"

/-- The function `export_xml` of `core/pipeline/export.py`, modelled at
reduced fidelity: the element structure mirrors the source (metadata
children, status, processing time, pages with entity elements and bbox
attributes), while pretty-printing and attribute escaping are abstracted.
No claim depends on this output. -/
def export_xml (r : RawResult) : String :=
  xmlElem "document"
    (xmlElem "metadata"
        (String.join ((r.metadata.getD []).map fun kv => xmlElem kv.1 kv.2)) ++
      xmlElem "status" (r.status.getD "") ++
      xmlElem "processing_time_ms" (toString (r.processing_time_ms.getD 0)) ++
      xmlElem "results"
        (String.join ((r.results.getD []).map fun p =>
          "<page number=" ++ jsonStr (toString (p.page.getD 1)) ++ ">" ++
            String.join ((p.entities.getD []).map fun e =>
              xmlElem "entity"
                (xmlElem "text" (e.text.getD "") ++
                  xmlElem "label" (e.label.getD "") ++
                  xmlElem "confidence" (toString (e.confidence.getD 0)) ++
                  (let b := e.bbox.getD ⟨none, none, none, none⟩
                   "<bbox x1=" ++ jsonStr (toString (b.x1.getD 0)) ++
                     " y1=" ++ jsonStr (toString (b.y1.getD 0)) ++
                     " x2=" ++ jsonStr (toString (b.x2.getD 0)) ++
                     " y2=" ++ jsonStr (toString (b.y2.getD 0)) ++ "/>"))) ++
            "</page>")))

/-- The function `export_result` of `core/pipeline/export.py`: dispatch on
the format name over the `exporters` dict with keys json, csv, xml; an
unknown format raises `ExportError` with the message below. -/
def export_result (r : RawResult) (format : String) : Except String String :=
  if format = "json" then Except.ok (export_json r)
  else if format = "csv" then Except.ok (export_csv r)
  else if format = "xml" then Except.ok (export_xml r)
  else Except.error
    ("Unknown format: " ++ format ++ ". Supported: [\x27json\x27, \x27csv\x27, \x27xml\x27]")

/-- C8: `export_result` fails with an export error on every format outside
json, csv, xml; on format csv it returns the `export_csv` output, whose
first line is exactly the header
page,text,label,confidence,x1,y1,x2,y2 and which has one subsequent row
per entity in which a missing text or label defaults to the empty string
and a missing confidence or bbox coordinate defaults to 0. -/
theorem export_result_formats (r : RawResult) :
    (∀ format : String, ¬ (format = "json" ∨ format = "csv" ∨ format = "xml") →
      export_result r format =
        Except.error
          ("Unknown format: " ++ format ++
            ". Supported: [\x27json\x27, \x27csv\x27, \x27xml\x27]")) ∧
    export_result r "csv" = Except.ok (export_csv r) ∧
    (csv_lines r).head? = some "page,text,label,confidence,x1,y1,x2,y2" ∧
    (csv_lines r).tail =
      ((r.results.getD []).bind fun p =>
        (p.entities.getD []).map fun e =>
          renderRow
            [Cell.ci (p.page.getD 1), Cell.cs (e.text.getD ""),
             Cell.cs (e.label.getD ""), Cell.cq (e.confidence.getD 0),
             Cell.ci ((e.bbox.getD ⟨none, none, none, none⟩).x1.getD 0),
             Cell.ci ((e.bbox.getD ⟨none, none, none, none⟩).y1.getD 0),
             Cell.ci ((e.bbox.getD ⟨none, none, none, none⟩).x2.getD 0),
             Cell.ci ((e.bbox.getD ⟨none, none, none, none⟩).y2.getD 0)]) := by
  refine ⟨?_, rfl, ?_, ?_⟩
  · intro format hf
    push_neg at hf
    simp only [export_result, if_neg hf.1, if_neg hf.2.1, if_neg hf.2.2]
  · show some (renderRow csvHeader) = _
    rw [show renderRow csvHeader = "page,text,label,confidence,x1,y1,x2,y2" by decide]
  · simp only [csv_lines, csv_rows, List.map_cons, List.tail_cons, List.map_bind,
      List.map_map]
    rfl

/-- Concrete result for the C8 witness: one page with one entity missing
its label, confidence and bbox. -/
def rExp : RawResult :=
  { status := some "success"
    processing_time_ms := some 5
    results := some
      [{ page := some 1
         entities := some [{ text := some "Name:", label := none,
                             confidence := none, bbox := none }] }]
    metadata := some [("ocr_engine", "easyocr")] }

/-- Witness for `export_result_formats`: the format yaml is rejected. -/
theorem export_result_formats_witness :
    ¬ ("yaml" = "json" ∨ "yaml" = "csv" ∨ "yaml" = "xml") ∧
    export_result rExp "yaml" =
      Except.error
        ("Unknown format: yaml. Supported: [\x27json\x27, \x27csv\x27, \x27xml\x27]") :=
  ⟨by decide, (export_result_formats rExp).1 "yaml" (by decide)⟩

end LayoutLM
